import Mathlib

/-!
Shallow embedding of the core layout algorithms of the manga-translation
pipeline (src/main.py and src/text_renderer.py), together with proofs of
the specification claims about them.

External collaborators (PIL glyph measurement, the pyphen hyphenation
dictionary, fonts) are abstracted as explicit function parameters:
a `Font` carries the text-measurement functions that `draw.textbbox` /
`draw.multiline_textbbox` provide at one font size, and a `Hyphenator`
carries `pyphen.Pyphen.positions`.  Everything translated from the
repository's own Python code keeps its source name.
-/

set_option maxHeartbeats 1000000

namespace MangaPipeline

/-- A character counts as whitespace for Python's `str.split` and the
regex class `\s` (ASCII part; the claims only involve ASCII input). -/
def pyIsSpace (c : Char) : Bool :=
  c = ' ' || c = '\t' || c = '\n' || c = '\r' || c = '\x0b' || c = '\x0c'

/-- Dropping a prefix never lengthens a list (termination helper). -/
theorem length_dropWhile_le (p : α → Bool) (l : List α) :
    (l.dropWhile p).length ≤ l.length := by
  have h := congrArg List.length (List.takeWhile_append_dropWhile p l)
  simp only [List.length_append] at h
  omega

/-- Termination helper for `sub1A`. -/
theorem tail_dropWhile_lt (p : α → Bool) (l : List α) :
    (l.dropWhile p).tail.length < l.length + 1 := by
  have h1 := length_dropWhile_le p l
  have h2 := List.length_tail (l.dropWhile p)
  omega

/-- Termination helper for `sub2A`. -/
theorem dropWhile_lt_succ (p : α → Bool) (l : List α) :
    (l.dropWhile p).length < l.length + 1 := by
  have h1 := length_dropWhile_le p l
  omega

/-- A detection bounding box `(x_min, y_min, x_max, y_max)`, as the tuples
passed to `group_bounding_boxes` in src/main.py. -/
structure Box where
  x_min : Int
  y_min : Int
  x_max : Int
  y_max : Int
deriving DecidableEq

/-- The sort key order of `sorted(boxes, key=lambda b: (b[1], b[0]))`:
lexicographic on `(y_min, x_min)`. -/
def boxKeyLe (a b : Box) : Prop :=
  a.y_min < b.y_min ∨ (a.y_min = b.y_min ∧ a.x_min ≤ b.x_min)

instance : DecidableRel boxKeyLe := fun a b => by
  unfold boxKeyLe; infer_instance

/-- `sorted(boxes, key=lambda b: (b[1], b[0]))` — Python's sort is stable,
and a stable sort by a total preorder is exactly stable insertion sort. -/
def sortBoxes (boxes : List Box) : List Box :=
  List.insertionSort boxKeyLe boxes

/-- The grouping test of src/main.py lines 62-68: the vertical distance is
`current_y_min - prev_y_max` and boxes are grouped when it lies in
`[0, y_threshold]`. -/
def closeEnough (y_threshold : Int) (prev_box current_box : Box) : Bool :=
  decide (0 ≤ current_box.y_min - prev_box.y_max ∧
          current_box.y_min - prev_box.y_max ≤ y_threshold)

/-- The loop of `group_bounding_boxes` (src/main.py lines 57-78): walk the
sorted boxes, carrying the previous box, the closed groups and the current
group; afterwards append the current group if nonempty. -/
def gb_loop (y_threshold : Int) (prev_box : Box) :
    List Box → List (List Box) → List Box → List (List Box)
  | [], groups, current_group =>
      if current_group ≠ [] then groups ++ [current_group] else groups
  | current_box :: rest, groups, current_group =>
      if closeEnough y_threshold prev_box current_box then
        gb_loop y_threshold current_box rest groups (current_group ++ [current_box])
      else
        gb_loop y_threshold current_box rest (groups ++ [current_group]) [current_box]

/-- `group_bounding_boxes` (src/main.py lines 35-80): sort by
`(y_min, x_min)` and split the sorted sequence into groups of vertically
close boxes.  Empty input yields the empty list. -/
def group_bounding_boxes (boxes : List Box) (y_threshold : Int) : List (List Box) :=
  match sortBoxes boxes with
  | [] => []
  | b :: rest => gb_loop y_threshold b rest [] [b]

/-- Spec-side combinator: chunk a list into maximal runs in which every
element satisfies the predicate `p` with respect to the immediately
preceding element. -/
def chunkGo (p : α → α → Bool) (prev : α) (current : List α) : List α → List (List α)
  | [] => [current]
  | b :: bs =>
      if p prev b then chunkGo p b (current ++ [b]) bs
      else current :: chunkGo p b [b] bs

/-- Spec-side combinator entry point: adjacent-predicate chunking. -/
def chunkAdj (p : α → α → Bool) : List α → List (List α)
  | [] => []
  | a :: as => chunkGo p a [a] as

/-- Abstract glyph metrics of one font at one fixed size
(src/text_renderer.py measures through PIL `ImageDraw`):
`width  t` models `draw.textbbox((0,0), t, font)[2] - draw.textbbox(...)[0]`,
`right  t` models `draw.textbbox((0,0), t, font)[2]`,
`mlWidth w` / `mlHeight w` model the width/height of
`draw.multiline_textbbox((0,0), w, font, align='center')`. -/
structure Font where
  width : String → Nat
  right : String → Nat
  mlWidth : String → Nat
  mlHeight : String → Nat

/-- Abstract hyphenation dictionary: `positions w` models
`HYPHENATOR.positions(w)` of pyphen (src/text_renderer.py line 35). -/
structure Hyphenator where
  positions : String → List Nat

/-- Python string slice `word[:i]` (by characters). -/
def strTake (s : String) (i : Nat) : String := ⟨s.data.take i⟩

/-- Python string slice `word[i:]` (by characters). -/
def strDrop (s : String) (i : Nat) : String := ⟨s.data.drop i⟩

/-- `break_long_word` (src/text_renderer.py lines 29-48).  Returns the
word unchanged when it fits, when there are no hyphenation points, or when
no hyphenated prefix fits; otherwise inserts `-\n` at the longest
hyphenation point whose prefix-plus-hyphen fits. -/
def break_long_word (word : String) (max_width : Nat) (f : Font) (hy : Hyphenator) :
    String :=
  if f.width word ≤ max_width then word
  else
    let hyphen_positions := hy.positions word
    if hyphen_positions = [] then word
    else
      match hyphen_positions.reverse.find?
          (fun i => f.right (strTake word i ++ "-") ≤ max_width) with
      | some i => strTake word i ++ "-\n" ++ strDrop word i
      | none => word

/-- Accumulator loop for Python `str.split()`: splits on runs of
whitespace, dropping empty pieces; `current` is the reversed current word. -/
def wordsAux (current : List Char) : List Char → List (List Char)
  | [] => if current = [] then [] else [current.reverse]
  | c :: cs =>
      if pyIsSpace c then
        if current = [] then wordsAux [] cs
        else current.reverse :: wordsAux [] cs
      else wordsAux (c :: current) cs

/-- Python `text.split()` (src/text_renderer.py line 79). -/
def wordsOf (text : String) : List String :=
  (wordsAux [] text.data).map (fun l => ⟨l⟩)

/-- Python `' '.join(words)`. -/
def joinSpace (ws : List String) : String :=
  ⟨List.intercalate [' '] (ws.map String.data)⟩

/-- Python `'\n'.join(lines)`. -/
def joinNl (ls : List String) : String :=
  ⟨List.intercalate ['\n'] (ls.map String.data)⟩

/-- Python `s.split('\n')` at the character-list level. -/
def splitNl : List Char → List (List Char)
  | [] => [[]]
  | c :: cs =>
      if c = '\n' then [] :: splitNl cs
      else
        match splitNl cs with
        | g :: gs => (c :: g) :: gs
        | [] => [[c]]

/-- Python `s.split('\n')`. -/
def linesOf (s : String) : List String :=
  (splitNl s.data).map (fun l => ⟨l⟩)

/-- The word loop of `wrap_text_with_breaking` (src/text_renderer.py lines
86-123): greedy first-fit wrapping with hyphenation fallback.  Returns the
produced lines (including the final flush), or `none` when a word cannot be
placed (the source's `return None`). -/
def wrapLoop (f : Font) (hy : Hyphenator) (box_width : Nat) :
    List String → List String → List String → Option (List String)
  | [], lines, current_line_words =>
      some (if current_line_words ≠ [] then lines ++ [joinSpace current_line_words]
            else lines)
  | word :: ws, lines, current_line_words =>
      let test_line :=
        if current_line_words ≠ [] then joinSpace (current_line_words ++ [word]) else word
      if f.width test_line ≤ box_width then
        wrapLoop f hy box_width ws lines (current_line_words ++ [word])
      else
        let lines' :=
          if current_line_words ≠ [] then lines ++ [joinSpace current_line_words]
          else lines
        if f.width word ≤ box_width then
          wrapLoop f hy box_width ws lines' [word]
        else
          let broken := break_long_word word box_width f hy
          if '\n' ∈ broken.data then
            let parts := linesOf broken
            if parts.dropLast.any (fun part => decide (f.width part > box_width)) then
              none
            else
              wrapLoop f hy box_width ws (lines' ++ parts.dropLast) [parts.getLastD ""]
          else none

/-- `wrap_text_with_breaking` (src/text_renderer.py lines 78-145): run the
word loop, join with newlines, then the vertical fit check and the final
per-line horizontal safety check. -/
def wrap_text_with_breaking (f : Font) (hy : Hyphenator) (text : String)
    (box_width box_height : Nat) : Option String :=
  match wrapLoop f hy box_width (wordsOf text) [] [] with
  | none => none
  | some lines =>
      let wrapped := joinNl lines
      if f.mlHeight wrapped > box_height then none
      else if lines.any (fun line => decide (f.width line > box_width)) then none
      else some wrapped

/-- One probe of the font-size search: `wrap_text_with_breaking` at the
font `get_font(size)` (src/text_renderer.py lines 61-64). -/
def probeSize (getFont : Nat → Font) (hy : Hyphenator) (text : String)
    (box_width box_height : Nat) (size : Nat) : Option String :=
  wrap_text_with_breaking (getFont size) hy text box_width box_height

/-- The `while low <= high` loop of `calculate_font_size`
(src/text_renderer.py lines 59-73), with its termination measure
`high + 1 - low` made an explicit structural fuel argument (each iteration
shrinks the closed interval, so `max_size + 1 - min_size` fuel always
suffices; the correctness lemmas below assume exactly that bound). -/
def cfs_loop (getFont : Nat → Font) (hy : Hyphenator) (text : String)
    (box_width box_height : Nat) :
    Nat → Nat → Nat → Nat → String → Nat × String
  | 0, _low, _high, best_size, best_wrapped_text => (best_size, best_wrapped_text)
  | fuel + 1, low, high, best_size, best_wrapped_text =>
      if low ≤ high then
        let size := (low + high) / 2
        match probeSize getFont hy text box_width box_height size with
        | none =>
            cfs_loop getFont hy text box_width box_height fuel
              low (size - 1) best_size best_wrapped_text
        | some result =>
            cfs_loop getFont hy text box_width box_height fuel
              (size + 1) high size result
      else (best_size, best_wrapped_text)

/-- `calculate_font_size` (src/text_renderer.py lines 49-76): binary
search for the largest font size whose wrap succeeds, starting from the
degraded default `(min_size, text)`. -/
def calculate_font_size (getFont : Nat → Font) (hy : Hyphenator) (text : String)
    (box_width box_height : Nat) (max_size min_size : Nat) : Nat × String :=
  cfs_loop getFont hy text box_width box_height
    (max_size + 1 - min_size) min_size max_size min_size text

/-- The two single-character replacements of src/text_renderer.py line 166:
`.replace('．', '.')` then `.replace('…', '.')` (each pattern is a single
character, so substring replacement is a character map). -/
def mapFw (l : List Char) : List Char :=
  (l.map (fun c => if c = '．' then '.' else c)).map (fun c => if c = '…' then '.' else c)

/-- State machine for `re.sub(r'\.\s+\.', '..', text)` (src/text_renderer.py
line 169), scanning left to right over non-overlapping matches: `none` is
the normal state; `some ws` means a `'.'` is pending with the (reversed)
whitespace run `ws` collected after it.  `\s+` is greedy and `\s` cannot
match `'.'`, so a match is exactly a period, a maximal nonempty whitespace
run, then a period. -/
def sub1go : Option (List Char) → List Char → List Char
  | none, [] => []
  | some ws, [] => '.' :: ws.reverse
  | none, c :: rest =>
      if c = '.' then sub1go (some []) rest else c :: sub1go none rest
  | some ws, c :: rest =>
      if pyIsSpace c then sub1go (some (c :: ws)) rest
      else if c = '.' then
        if ws ≠ [] then '.' :: '.' :: sub1go none rest
        else '.' :: sub1go (some []) rest
      else '.' :: ws.reverse ++ c :: sub1go none rest

/-- `re.sub(r'\.\s+\.', '..', ·)` at the character-list level. -/
def sub1 (l : List Char) : List Char := sub1go none l

/-- Run flush for `sub2go`: a pending run of `n` periods is emitted as
three periods when `n ≥ 3` (the regex `\.{3,}` matched) and verbatim
otherwise. -/
def dotsOut (n : Nat) : List Char :=
  if n ≥ 3 then ['.', '.', '.'] else List.replicate n '.'

/-- State machine for `re.sub(r'\.{3,}', '...', text)` (src/text_renderer.py
line 170): `dots` counts the pending run of consecutive periods. -/
def sub2go (dots : Nat) : List Char → List Char
  | [] => dotsOut dots
  | c :: rest =>
      if c = '.' then sub2go (dots + 1) rest
      else dotsOut dots ++ c :: sub2go 0 rest

/-- `re.sub(r'\.{3,}', '...', ·)` at the character-list level. -/
def sub2 (l : List Char) : List Char := sub2go 0 l

/-- The text normalization applied by `render_text` before wrapping
(src/text_renderer.py lines 165-170). -/
def normalize_text (s : String) : String :=
  ⟨sub2 (sub1 (mapFw s.data))⟩

/-- As the claim literally words it, step 2 collapses \x7ba space\x7d — a single
ASCII space character — between two periods (left to right, non-overlapping
matches). -/
def sub1claim : List Char → List Char
  | '.' :: ' ' :: '.' :: rest => '.' :: '.' :: sub1claim rest
  | c :: rest => c :: sub1claim rest
  | [] => []

/-- The normalization pipeline exactly as claim C5 words it: same steps 1
and 3, but step 2 collapses only a single ASCII space between periods. -/
def normalize_claim (s : String) : String :=
  ⟨sub2 (sub1claim (mapFw s.data))⟩

/-- Amended step 2, written lookahead-style directly from the corrected
wording: a period followed by a maximal nonempty run of whitespace
characters followed by a period collapses to two consecutive periods,
scanning left to right over non-overlapping matches. -/
def sub1A : List Char → List Char
  | [] => []
  | c :: rest =>
      if c = '.' ∧ rest.takeWhile pyIsSpace ≠ [] ∧
          (rest.dropWhile pyIsSpace).head? = some '.' then
        '.' :: '.' :: sub1A (rest.dropWhile pyIsSpace).tail
      else c :: sub1A rest
termination_by l => l.length
decreasing_by
  all_goals simp only [List.length_cons]
  all_goals first
    | omega
    | exact tail_dropWhile_lt pyIsSpace _

/-- Amended step 1, written directly from the claim's wording: map every
occurrence of the full-width period and the ellipsis to an ASCII period. -/
def charNorm (c : Char) : Char :=
  if c = '．' ∨ c = '…' then '.' else c

/-- Amended step 3, written lookahead-style directly from the claim's
wording: every run of three or more consecutive periods collapses to
exactly three periods. -/
def sub2A : List Char → List Char
  | [] => []
  | c :: rest =>
      if c = '.' then
        dotsOut ((rest.takeWhile (fun d => decide (d = '.'))).length + 1) ++
          sub2A (rest.dropWhile (fun d => decide (d = '.')))
      else c :: sub2A rest
termination_by l => l.length
decreasing_by
  all_goals simp only [List.length_cons]
  all_goals first
    | omega
    | exact dropWhile_lt_succ (fun d => decide (d = '.')) _

/-- The normalization pipeline as amended: the same three steps, with
step 2 collapsing a maximal nonempty whitespace run between two periods. -/
def normalize_amended (s : String) : String :=
  ⟨sub2A (sub1A (s.data.map charNorm))⟩

/-- One `draw.text` call of `render_text` (src/text_renderer.py lines
205-212): an anchor position, the rendered text, and the fill color. -/
structure DrawCmd where
  x : Int
  y : Int
  text : String
  fill : String
deriving DecidableEq

/-- `render_text` (src/text_renderer.py lines 148-214), with the image
abstracted to a type parameter that only the emitted `DrawCmd` list could
modify: normalize the text, compute the padded target rectangle, abort
returning the untouched image and no draw commands when the rectangle is
non-positive, otherwise run the font-size search, center the block, and
emit the 24 white outline commands followed by the black fill command. -/
def render_text (getFont : Nat → Font) (hy : Hyphenator) (image_pil : α)
    (translated_text : String) (bounding_box : Int × Int × Int × Int)
    (padding : Int) : α × List DrawCmd :=
  let x_min := bounding_box.1
  let y_min := bounding_box.2.1
  let x_max := bounding_box.2.2.1
  let y_max := bounding_box.2.2.2
  let text1 := normalize_text translated_text
  let box_width := x_max - x_min - 2 * padding
  let box_height := y_max - y_min - 2 * padding
  if box_width ≤ 0 ∨ box_height ≤ 0 then (image_pil, [])
  else
    let fs := calculate_font_size getFont hy text1 box_width.toNat box_height.toNat 80 10
    let font := getFont fs.1
    let wrapped_text := fs.2
    let text_width : Int := font.mlWidth wrapped_text
    let text_height : Int := font.mlHeight wrapped_text
    let text_x := x_min + padding + (box_width - text_width) / 2
    let text_y := y_min + padding + (box_height - text_height) / 2
    let offsets : List Int := (List.range 5).map (fun k => (k : Int) - 2)
    let outline :=
      offsets.flatMap (fun x_offset =>
        offsets.filterMap (fun y_offset =>
          if x_offset ≠ 0 ∨ y_offset ≠ 0 then
            some ⟨text_x + x_offset, text_y + y_offset, wrapped_text, "white"⟩
          else none))
    (image_pil, outline ++ [⟨text_x, text_y, wrapped_text, "black"⟩])

/-- Hyphenation dictionary with no hyphenation points at all (the pyphen
behavior on words such as short or unknown tokens). -/
def hy0 : Hyphenator := ⟨fun _ => []⟩

/-- A font all of whose measurements are zero: everything fits. -/
def f0 : Font := ⟨fun _ => 0, fun _ => 0, fun _ => 0, fun _ => 0⟩

/-- A font all of whose measurements are huge: nothing nonempty fits. -/
def fbig : Font := ⟨fun _ => 1000, fun _ => 1000, fun _ => 1000, fun _ => 1000⟩

/-- A size-indexed font family under which wrapping succeeds exactly at
size 80: the fit predicate is not monotone in the size. -/
def gF80 : Nat → Font := fun s => if s = 80 then f0 else fbig

/-- The constant zero-width font family: every size fits. -/
def gF0 : Nat → Font := fun _ => f0

/-- A dictionary giving the five-letter word `"mnopq"` a hyphenation point
after two letters and no other word any point. -/
def hy6 : Hyphenator := ⟨fun w => if w = "mnopq" then [2] else []⟩

/-- A monospace font family: every character is `s` pixels wide at size
`s`, and a wrapped block is `s` pixels per line high. -/
def gFmono : Nat → Font :=
  fun s => ⟨fun t => s * t.length, fun t => s * t.length, fun _ => 0,
            fun w => s * (linesOf w).length⟩

/-! ## Helper lemmas -/

/-- The grouping loop prepends the already-closed groups to the chunking
of the remaining walk. -/
theorem gb_loop_eq_chunkGo (y_threshold : Int) (prev : Box) (rest : List Box) :
    ∀ groups current, current ≠ [] →
      gb_loop y_threshold prev rest groups current =
        groups ++ chunkGo (closeEnough y_threshold) prev current rest := by
  induction rest generalizing prev with
  | nil =>
      intro groups current h
      simp [gb_loop, chunkGo, h]
  | cons b bs ih =>
      intro groups current h
      by_cases hb : closeEnough y_threshold prev b
      · simp only [gb_loop, chunkGo, hb, if_true]
        exact ih b groups (current ++ [b]) (by simp)
      · simp only [gb_loop, chunkGo, hb, Bool.false_eq_true, if_false]
        rw [ih b (groups ++ [current]) [b] (by simp)]
        simp

/-- Flattening the grouping loop recovers closed groups, current group and
remaining boxes in order. -/
theorem gb_loop_flatten (y_threshold : Int) (prev : Box) (rest : List Box) :
    ∀ groups current,
      (gb_loop y_threshold prev rest groups current).flatten =
        groups.flatten ++ current ++ rest := by
  induction rest generalizing prev with
  | nil =>
      intro groups current
      by_cases h : current = []
      · simp [gb_loop, h]
      · simp [gb_loop, h]
  | cons b bs ih =>
      intro groups current
      by_cases hb : closeEnough y_threshold prev b
      · simp only [gb_loop, hb, if_true]
        rw [ih b groups (current ++ [b])]
        simp
      · simp only [gb_loop, hb, Bool.false_eq_true, if_false]
        rw [ih b (groups ++ [current]) [b]]
        simp

/-- The concatenation of all groups is exactly the sorted box sequence. -/
theorem group_bounding_boxes_flatten (boxes : List Box) (y_threshold : Int) :
    (group_bounding_boxes boxes y_threshold).flatten = sortBoxes boxes := by
  unfold group_bounding_boxes
  cases hs : sortBoxes boxes with
  | nil => rfl
  | cons b rest =>
      rw [gb_loop_flatten]
      simp

/-! ## Claim theorems -/

/-- C7: with `y_threshold = 50`, the boxes `(0,0,100,20)`, `(0,25,100,45)`,
`(0,200,100,220)` are grouped into exactly two groups: the first two boxes
together (gap 5 ≤ 50) and the third alone (gap 155 > 50). -/
theorem C7_concrete_grouping :
    group_bounding_boxes [⟨0,0,100,20⟩, ⟨0,25,100,45⟩, ⟨0,200,100,220⟩] 50 =
      [[⟨0,0,100,20⟩, ⟨0,25,100,45⟩], [⟨0,200,100,220⟩]] := by
  decide

/-- C1, counterexample: the code appends `(0,25,100,45)` to the group of
`(0,0,100,20)`, although the claim's vertical distance
`prev.y_max - current.y_min = 20 - 25 = -5` does not satisfy
`0 ≤ vertical_distance ≤ 50`; the claimed iff is false on this input. -/
theorem C1_counterexample :
    group_bounding_boxes [⟨0,0,100,20⟩, ⟨0,25,100,45⟩] 50 =
      [[⟨0,0,100,20⟩, ⟨0,25,100,45⟩]] ∧
    ¬ (0 ≤ (20 : Int) - 25 ∧ (20 : Int) - 25 ≤ 50) := by
  decide

/-- C1, amended: in the sequence sorted by `(y_min, x_min)`, box `i > 0` is
appended to the current group iff
`vertical_distance = current.y_min - prev.y_max` (the sign opposite to the
claim's formula) satisfies `0 ≤ vertical_distance ≤ y_threshold`, prev
being the immediately preceding box in sorted order; otherwise a new group
starts.  Stated as: the grouping equals adjacent-predicate chunking of the
sorted sequence by that condition. -/
theorem C1_amended_grouping_rule (boxes : List Box) (y_threshold : Int) :
    group_bounding_boxes boxes y_threshold =
      chunkAdj
        (fun prev current =>
          decide (0 ≤ current.y_min - prev.y_max ∧
                  current.y_min - prev.y_max ≤ y_threshold))
        (sortBoxes boxes) := by
  unfold group_bounding_boxes chunkAdj
  cases hs : sortBoxes boxes with
  | nil => rfl
  | cons b rest =>
      exact gb_loop_eq_chunkGo y_threshold b rest [] [b] (by simp)

/-- C4: region grouping partitions its input: the multiset union of the
produced groups equals the input multiset (no box duplicated or dropped),
and the empty input yields the empty group list. -/
theorem C4_partition (boxes : List Box) (y_threshold : Int) :
    ((group_bounding_boxes boxes y_threshold).flatten : Multiset Box) = (boxes : Multiset Box) ∧
    group_bounding_boxes [] y_threshold = [] := by
  constructor
  · rw [Multiset.coe_eq_coe, group_bounding_boxes_flatten]
    exact List.perm_insertionSort boxKeyLe boxes
  · rfl

/-- Splitting Python `str.split()` output of an all-non-whitespace string:
the accumulator loop returns the single accumulated word. -/
theorem wordsAux_all_nonspace (l : List Char) (hl : ∀ c ∈ l, pyIsSpace c = false) :
    ∀ current, wordsAux current l =
      if current.reverse ++ l = [] then [] else [current.reverse ++ l] := by
  induction l with
  | nil =>
      intro current
      simp [wordsAux]
  | cons c cs ih =>
      intro current
      have hc : pyIsSpace c = false := hl c (by simp)
      have hcs : ∀ d ∈ cs, pyIsSpace d = false := fun d hd => hl d (by simp [hd])
      simp only [wordsAux, hc, Bool.false_eq_true, if_false]
      rw [ih hcs (c :: current)]
      simp

/-- A nonempty whitespace-free string splits into itself as single word. -/
theorem wordsOf_single (word : String) (hne : word.data ≠ [])
    (hws : ∀ c ∈ word.data, pyIsSpace c = false) :
    wordsOf word = [word] := by
  unfold wordsOf
  rw [wordsAux_all_nonspace word.data hws []]
  simp [hne]

/-- C10: `break_long_word` either returns the word verbatim, or inserts a
single `-\n` at a dictionary hyphenation index whose prefix-plus-hyphen
fits `max_width`; in the latter case the prefix and suffix reassemble the
input word exactly, so hyphenation never drops, duplicates or alters a
character. -/
theorem C10_break_long_word_shape (word : String) (max_width : Nat) (f : Font)
    (hy : Hyphenator) :
    break_long_word word max_width f hy = word ∨
    ∃ i ∈ hy.positions word,
      f.right (strTake word i ++ "-") ≤ max_width ∧
      break_long_word word max_width f hy = strTake word i ++ "-\n" ++ strDrop word i ∧
      strTake word i ++ strDrop word i = word := by
  unfold break_long_word
  by_cases h1 : f.width word ≤ max_width
  · left; simp [h1]
  · by_cases h2 : hy.positions word = []
    · left; simp [h1, h2]
    · cases hf : (hy.positions word).reverse.find?
          (fun i => decide (f.right (strTake word i ++ "-") ≤ max_width)) with
      | none => left; simp [h1, h2, hf]
      | some i =>
          right
          refine ⟨i, List.mem_reverse.mp (List.mem_of_find?_eq_some hf), ?_, ?_, ?_⟩
          · simpa using List.find?_some hf
          · simp [h1, h2, hf]
          · exact String.ext (by simp [strTake, strDrop])

/-- C8: a nonempty whitespace-free word with no hyphenation points whose
rendered width exceeds the available width makes `break_long_word` return
it unbroken (the failure outcome), and that failure propagates:
`wrap_text_with_breaking` returns `none` for that word at this font. -/
theorem C8_no_hyphen_failure (word : String) (box_width box_height : Nat)
    (f : Font) (hy : Hyphenator)
    (hne : word.data ≠ [])
    (hws : ∀ c ∈ word.data, pyIsSpace c = false)
    (hpos : hy.positions word = [])
    (hwide : box_width < f.width word) :
    break_long_word word box_width f hy = word ∧
    wrap_text_with_breaking f hy word box_width box_height = none := by
  have hfit : ¬ f.width word ≤ box_width := by omega
  have hbreak : break_long_word word box_width f hy = word := by
    simp [break_long_word, hfit, hpos]
  refine ⟨hbreak, ?_⟩
  have hnl : ¬ '\n' ∈ word.data := by
    intro hmem
    have := hws '\n' hmem
    simp [pyIsSpace] at this
  unfold wrap_text_with_breaking
  rw [wordsOf_single word hne hws]
  simp [wrapLoop, hfit, hbreak, hnl]

/-- C8 witness: the two-letter word `"ab"` with the huge font, no
hyphenation points, and a 10-pixel-wide box. -/
theorem C8_no_hyphen_failure_witness :
    "ab".data ≠ [] ∧ (∀ c ∈ "ab".data, pyIsSpace c = false) ∧
    hy0.positions "ab" = [] ∧ 10 < fbig.width "ab" ∧
    break_long_word "ab" 10 fbig hy0 = "ab" ∧
    wrap_text_with_breaking fbig hy0 "ab" 10 10 = none := by
  refine ⟨by decide, by decide, rfl, by decide, ?_, ?_⟩
  · exact (C8_no_hyphen_failure "ab" 10 10 fbig hy0 (by decide) (by decide) rfl
      (by decide)).1
  · exact (C8_no_hyphen_failure "ab" 10 10 fbig hy0 (by decide) (by decide) rfl
      (by decide)).2

/-- C9: when the padded target rectangle is non-positive in either
dimension, `render_text` aborts before the font-size search: it returns
the input image unchanged and emits no draw commands at all. -/
theorem C9_degenerate_box (getFont : Nat → Font) (hy : Hyphenator) {α : Type u}
    (image_pil : α) (translated_text : String)
    (bounding_box : Int × Int × Int × Int) (padding : Int)
    (h : bounding_box.2.2.1 - bounding_box.1 - 2 * padding ≤ 0 ∨
         bounding_box.2.2.2 - bounding_box.2.1 - 2 * padding ≤ 0) :
    render_text getFont hy image_pil translated_text bounding_box padding =
      (image_pil, []) := by
  unfold render_text
  rw [if_pos h]

/-- C9 witness: a 5×5 box with padding 5 leaves a negative inner width. -/
theorem C9_degenerate_box_witness :
    ((0 : Int), (0 : Int), (5 : Int), (5 : Int)).2.2.1 -
      ((0 : Int), (0 : Int), (5 : Int), (5 : Int)).1 - 2 * 5 ≤ 0 ∧
    render_text gF0 hy0 (0 : Nat) "hi" (0, 0, 5, 5) 5 = (0, []) :=
  ⟨by decide, C9_degenerate_box gF0 hy0 0 "hi" (0, 0, 5, 5) 5 (Or.inl (by decide))⟩

/-- The head of a `dropWhile` result never satisfies the predicate. -/
theorem dropWhile_head_not (p : α → Bool) (l : List α) :
    ∀ c rest, l.dropWhile p = c :: rest → p c = false := by
  induction l with
  | nil => intro c rest h; simp at h
  | cons a as ih =>
      intro c rest h
      rw [List.dropWhile_cons] at h
      by_cases ha : p a
      · rw [if_pos ha] at h; exact ih c rest h
      · rw [if_neg ha] at h
        cases h
        simpa using ha

/-- Step 1 of the normalization, the two sequential single-character
replacements, equals the single character map of the claim's wording. -/
theorem mapFw_eq_map_charNorm (l : List Char) : mapFw l = l.map charNorm := by
  unfold mapFw
  rw [List.map_map]
  apply List.map_congr_left
  intro c _
  by_cases h1 : c = '．'
  · subst h1; rfl
  · by_cases h2 : c = '…'
    · subst h2; rfl
    · simp [charNorm, h1, h2, Function.comp]

/-- `sub1go` on a pending period whose remaining input is all whitespace:
emit the period and the collected whitespace verbatim. -/
theorem sub1go_all_space (ws1 : List Char) (hws : ∀ c ∈ ws1, pyIsSpace c = true) :
    ∀ acc, sub1go (some acc) ws1 = '.' :: acc.reverse ++ ws1 := by
  induction ws1 with
  | nil => intro acc; simp [sub1go]
  | cons c cs ih =>
      intro acc
      have hc : pyIsSpace c = true := hws c (by simp)
      have hcs : ∀ d ∈ cs, pyIsSpace d = true := fun d hd => hws d (by simp [hd])
      simp only [sub1go, hc, if_true]
      rw [ih hcs (c :: acc)]
      simp

/-- `sub1go` on a pending period followed by whitespace and a closing
period: a regex match, emitting two periods and continuing after it. -/
theorem sub1go_match (ws1 : List Char) (hws : ∀ c ∈ ws1, pyIsSpace c = true)
    (r : List Char) :
    ∀ acc, ws1 ≠ [] ∨ acc ≠ [] →
      sub1go (some acc) (ws1 ++ '.' :: r) = '.' :: '.' :: sub1go none r := by
  induction ws1 with
  | nil =>
      intro acc hne
      have hacc : acc ≠ [] := by
        rcases hne with h | h
        · exact absurd rfl h
        · exact h
      simp [sub1go, pyIsSpace, hacc]
  | cons c cs ih =>
      intro acc _
      have hc : pyIsSpace c = true := hws c (by simp)
      have hcs : ∀ d ∈ cs, pyIsSpace d = true := fun d hd => hws d (by simp [hd])
      simp only [List.cons_append, sub1go, hc, if_true]
      exact ih hcs (c :: acc) (Or.inr (by simp))

/-- `sub1go` on a pending period whose whitespace run is closed by a
non-period: no match, emit everything collected and continue normally. -/
theorem sub1go_no_match (ws1 : List Char) (hws : ∀ c ∈ ws1, pyIsSpace c = true)
    (c : Char) (r : List Char) (hc : pyIsSpace c = false) (hdot : c ≠ '.') :
    ∀ acc, sub1go (some acc) (ws1 ++ c :: r) =
      '.' :: acc.reverse ++ ws1 ++ c :: sub1go none r := by
  induction ws1 with
  | nil =>
      intro acc
      simp [sub1go, hc, hdot]
  | cons w wsr ih =>
      intro acc
      have hw : pyIsSpace w = true := hws w (by simp)
      have hwsr : ∀ d ∈ wsr, pyIsSpace d = true := fun d hd => hws d (by simp [hd])
      simp only [List.cons_append, sub1go, hw, if_true, List.append_eq]
      rw [ih hwsr (w :: acc)]
      simp

/-- `sub1A` leaves whitespace characters untouched. -/
theorem sub1A_space_prefix (ws1 : List Char) (hws : ∀ c ∈ ws1, pyIsSpace c = true)
    (r : List Char) : sub1A (ws1 ++ r) = ws1 ++ sub1A r := by
  induction ws1 with
  | nil => simp
  | cons w wsr ih =>
      have hw : pyIsSpace w = true := hws w (by simp)
      have hwsr : ∀ d ∈ wsr, pyIsSpace d = true := fun d hd => hws d (by simp [hd])
      have hwdot : w ≠ '.' := by
        intro h; subst h; simp [pyIsSpace] at hw
      rw [List.cons_append, sub1A]
      rw [if_neg (by simp [hwdot])]
      rw [ih hwsr, List.cons_append]

/-- The state machine `sub1` agrees with the lookahead formulation
`sub1A` of the amended wording. -/
theorem sub1_eq_sub1A_aux : ∀ n l, l.length ≤ n → sub1go none l = sub1A l := by
  intro n
  induction n with
  | zero =>
      intro l hl
      have : l = [] := List.eq_nil_of_length_eq_zero (by omega)
      subst this
      simp [sub1go, sub1A]
  | succ n ih =>
      intro l hl
      match l with
      | [] => simp [sub1go, sub1A]
      | c :: rest =>
          by_cases hc : c = '.'
          · subst hc
            have hsplit := List.takeWhile_append_dropWhile pyIsSpace rest
            have hws1 : ∀ x ∈ rest.takeWhile pyIsSpace, pyIsSpace x = true :=
              fun x hx => List.mem_takeWhile_imp hx
            have hlrest : rest.length ≤ n := by
              simp only [List.length_cons] at hl; omega
            cases hdrop : rest.dropWhile pyIsSpace with
            | nil =>
                have hrest : rest = rest.takeWhile pyIsSpace := by
                  conv_lhs => rw [← hsplit]
                  rw [hdrop, List.append_nil]
                have h5 : sub1A (rest.takeWhile pyIsSpace) = rest.takeWhile pyIsSpace := by
                  have h6 := sub1A_space_prefix (rest.takeWhile pyIsSpace) hws1 []
                  simpa [sub1A] using h6
                show sub1go (some []) rest = sub1A ('.' :: rest)
                rw [sub1A, if_neg (by simp [hdrop])]
                conv_lhs => rw [hrest]
                rw [sub1go_all_space _ hws1 []]
                conv_rhs => rw [hrest, h5]
                simp
            | cons c' rest' =>
                have hc' : pyIsSpace c' = false := dropWhile_head_not pyIsSpace rest c' rest' hdrop
                have hrest : rest = rest.takeWhile pyIsSpace ++ c' :: rest' := by
                  conv_lhs => rw [← hsplit]
                  rw [hdrop]
                have hrest' : rest'.length ≤ n := by
                  have h1 : (c' :: rest').length ≤ rest.length := by
                    rw [← hdrop]; exact length_dropWhile_le pyIsSpace rest
                  simp only [List.length_cons] at h1 hl
                  omega
                by_cases hcdot : c' = '.'
                · subst hcdot
                  by_cases hws1ne : rest.takeWhile pyIsSpace = []
                  · have hrest2 : rest = '.' :: rest' := by
                      rw [hrest, hws1ne, List.nil_append]
                    show sub1go (some []) rest = sub1A ('.' :: rest)
                    rw [sub1A, if_neg (by simp [hws1ne])]
                    rw [hrest2]
                    show '.' :: sub1go (some []) rest' = '.' :: sub1A ('.' :: rest')
                    rw [show sub1go (some []) rest' = sub1go none ('.' :: rest') from rfl]
                    rw [ih ('.' :: rest') (by rw [hrest2] at hlrest; exact hlrest)]
                  · show sub1go (some []) rest = sub1A ('.' :: rest)
                    rw [sub1A, if_pos (by exact ⟨rfl, hws1ne, by rw [hdrop]; rfl⟩)]
                    conv_lhs => rw [hrest]
                    rw [sub1go_match _ hws1 rest' [] (Or.inl hws1ne)]
                    rw [ih rest' hrest']
                    rw [hdrop]
                    rfl
                · show sub1go (some []) rest = sub1A ('.' :: rest)
                  rw [sub1A, if_neg (by simp [hdrop, hcdot])]
                  conv_lhs => rw [hrest]
                  rw [sub1go_no_match _ hws1 c' rest' hc' hcdot []]
                  conv_rhs => rw [hrest, sub1A_space_prefix _ hws1]
                  rw [sub1A, if_neg (by simp [hcdot])]
                  rw [ih rest' hrest']
                  simp
          · have hrest : rest.length ≤ n := by
              simp only [List.length_cons] at hl; omega
            show sub1go none (c :: rest) = sub1A (c :: rest)
            rw [sub1A, if_neg (by simp [hc])]
            simp only [sub1go, hc, if_false]
            rw [ih rest hrest]

/-- `sub1` equals the amended lookahead formulation. -/
theorem sub1_eq_sub1A (l : List Char) : sub1 l = sub1A l :=
  sub1_eq_sub1A_aux l.length l (le_refl _)

/-- `sub2go` with a pending run absorbs the leading period run of the
input and flushes at the first non-period (or at the end). -/
theorem sub2go_absorb (l : List Char) :
    ∀ dots, sub2go dots l =
      match l.dropWhile (fun d => decide (d = '.')) with
      | [] => dotsOut (dots + (l.takeWhile (fun d => decide (d = '.'))).length)
      | c :: rest =>
          dotsOut (dots + (l.takeWhile (fun d => decide (d = '.'))).length) ++
            c :: sub2go 0 rest := by
  induction l with
  | nil => intro dots; simp [sub2go]
  | cons c cs ih =>
      intro dots
      by_cases hc : c = '.'
      · subst hc
        simp only [sub2go, if_pos rfl]
        rw [ih (dots + 1)]
        rw [List.dropWhile_cons, List.takeWhile_cons]
        simp only [decide_eq_true_eq, eq_self_iff_true, if_true]
        have harith : dots + 1 + (cs.takeWhile (fun d => decide (d = '.'))).length =
            dots + ((cs.takeWhile (fun d => decide (d = '.'))).length + 1) := by omega
        cases cs.dropWhile (fun d => decide (d = '.')) with
        | nil => simp [harith]
        | cons c' rest => simp [harith]
      · simp only [sub2go, if_neg hc]
        rw [List.dropWhile_cons, List.takeWhile_cons]
        simp [hc]

/-- The state machine `sub2` agrees with the lookahead formulation
`sub2A` of the claim's wording. -/
theorem sub2_eq_sub2A_aux : ∀ n l, l.length ≤ n → sub2go 0 l = sub2A l := by
  intro n
  induction n with
  | zero =>
      intro l hl
      have : l = [] := List.eq_nil_of_length_eq_zero (by omega)
      subst this
      simp [sub2go, sub2A, dotsOut]
  | succ n ih =>
      intro l hl
      match l with
      | [] => simp [sub2go, sub2A, dotsOut]
      | c :: cs =>
          by_cases hc : c = '.'
          · subst hc
            rw [sub2A, if_pos rfl]
            simp only [sub2go, if_pos rfl]
            rw [sub2go_absorb cs 1]
            have hlen := length_dropWhile_le (fun d => decide (d = '.')) cs
            cases hdrop : cs.dropWhile (fun d => decide (d = '.')) with
            | nil =>
                simp only [hdrop]
                rw [show (1 : Nat) + (cs.takeWhile (fun d => decide (d = '.'))).length =
                  (cs.takeWhile (fun d => decide (d = '.'))).length + 1 from by omega]
                simp [sub2A]
            | cons c' rest' =>
                have hc' : decide (c' = '.') = false :=
                  dropWhile_head_not _ cs c' rest' hdrop
                have hcdot : c' ≠ '.' := by simpa using hc'
                have hrest' : rest'.length ≤ n := by
                  rw [hdrop] at hlen
                  simp only [List.length_cons] at hlen hl
                  omega
                simp only [hdrop]
                rw [show (1 : Nat) + (cs.takeWhile (fun d => decide (d = '.'))).length =
                  (cs.takeWhile (fun d => decide (d = '.'))).length + 1 from by omega]
                rw [sub2A, if_neg hcdot]
                rw [ih rest' hrest']
                simp
          · have hcs : cs.length ≤ n := by
              simp only [List.length_cons] at hl; omega
            simp only [sub2go, if_neg hc]
            rw [sub2A, if_neg hc, ih cs hcs]
            simp [dotsOut]

/-- C5, counterexample: the code's normalization collapses any nonempty
whitespace run between periods (regex `\s+`), not only a single space:
on `".\t."` (tab) and `".  ."` (two spaces) the code produces `".."`,
while the pipeline described by the claim leaves both inputs unchanged. -/
theorem C5_counterexample :
    normalize_text ".\t." = ".." ∧ normalize_claim ".\t." = ".\t." ∧
    normalize_text ".  ." = ".." ∧ normalize_claim ".  ." = ".  ." ∧
    normalize_text ".\t." ≠ normalize_claim ".\t." ∧
    normalize_text ".  ." ≠ normalize_claim ".  ." := by
  refine ⟨by decide, by decide, by decide, by decide, by decide, by decide⟩

/-- C5, amended: for every input string the normalization applied by
`render_text` maps every `．` and `…` to `.`, then collapses each maximal
nonempty run of whitespace characters enclosed by two periods into
consecutive periods (left to right, non-overlapping), then collapses every
run of 3 or more consecutive periods to exactly three. -/
theorem C5_amended_normalization (s : String) :
    normalize_text s = normalize_amended s := by
  unfold normalize_text normalize_amended
  apply congrArg String.mk
  rw [mapFw_eq_map_charNorm]
  rw [show sub1 (s.data.map charNorm) = sub1A (s.data.map charNorm) from
    sub1_eq_sub1A _]
  exact sub2_eq_sub2A_aux (sub1A (s.data.map charNorm)).length _ (le_refl _)

/-- The size returned by the search loop is its running best or lies at or
above the lower bound. -/
theorem cfs_loop_fst_lower (getFont : Nat → Font) (hy : Hyphenator) (text : String)
    (bw bh : Nat) :
    ∀ fuel low high b bt,
      (cfs_loop getFont hy text bw bh fuel low high b bt).1 = b ∨
      low ≤ (cfs_loop getFont hy text bw bh fuel low high b bt).1 := by
  intro fuel
  induction fuel with
  | zero => intro low high b bt; left; rfl
  | succ n ih =>
      intro low high b bt
      by_cases hlh : low ≤ high
      · have hmid1 : low ≤ (low + high) / 2 := by omega
        cases hp : probeSize getFont hy text bw bh ((low + high) / 2) with
        | none =>
            have hstep : cfs_loop getFont hy text bw bh (n + 1) low high b bt =
                cfs_loop getFont hy text bw bh n low ((low + high) / 2 - 1) b bt := by
              simp only [cfs_loop]
              rw [if_pos hlh, hp]
            rw [hstep]
            exact ih low ((low + high) / 2 - 1) b bt
        | some r =>
            have hstep : cfs_loop getFont hy text bw bh (n + 1) low high b bt =
                cfs_loop getFont hy text bw bh n ((low + high) / 2 + 1) high
                  ((low + high) / 2) r := by
              simp only [cfs_loop]
              rw [if_pos hlh, hp]
            rw [hstep]
            rcases ih ((low + high) / 2 + 1) high ((low + high) / 2) r with h | h
            · right; omega
            · right; omega
      · have hstep : cfs_loop getFont hy text bw bh (n + 1) low high b bt = (b, bt) := by
          simp only [cfs_loop]
          rw [if_neg hlh]
        rw [hstep]
        left; rfl

/-- When no size in `[low, high]` fits, the search loop returns its
running best unchanged. -/
theorem cfs_loop_none (getFont : Nat → Font) (hy : Hyphenator) (text : String)
    (bw bh : Nat) :
    ∀ fuel low high b bt,
      (∀ s, low ≤ s → s ≤ high → probeSize getFont hy text bw bh s = none) →
      cfs_loop getFont hy text bw bh fuel low high b bt = (b, bt) := by
  intro fuel
  induction fuel with
  | zero => intro low high b bt _; rfl
  | succ n ih =>
      intro low high b bt hnone
      by_cases hlh : low ≤ high
      · have hp : probeSize getFont hy text bw bh ((low + high) / 2) = none :=
          hnone _ (by omega) (by omega)
        have hstep : cfs_loop getFont hy text bw bh (n + 1) low high b bt =
            cfs_loop getFont hy text bw bh n low ((low + high) / 2 - 1) b bt := by
          simp only [cfs_loop]
          rw [if_pos hlh, hp]
        rw [hstep]
        exact ih low ((low + high) / 2 - 1) b bt
          (fun s hs1 hs2 => hnone s hs1 (by omega))
      · simp only [cfs_loop]
        rw [if_neg hlh]

/-- Correctness of the binary-search loop under the monotonicity
assumption (a size that fits implies all smaller sizes fit): when some
size in `[low, high]` fits and the fuel covers the interval, the loop
returns a fitting size in range together with its wrap, and no fitting
size at or below `high` exceeds it. -/
theorem cfs_loop_found (getFont : Nat → Font) (hy : Hyphenator) (text : String)
    (bw bh : Nat)
    (hmono : ∀ s u, s ≤ u → probeSize getFont hy text bw bh u ≠ none →
      probeSize getFont hy text bw bh s ≠ none) :
    ∀ fuel low high b bt,
      high + 1 - low ≤ fuel →
      (∃ s, low ≤ s ∧ s ≤ high ∧ probeSize getFont hy text bw bh s ≠ none) →
      low ≤ (cfs_loop getFont hy text bw bh fuel low high b bt).1 ∧
      (cfs_loop getFont hy text bw bh fuel low high b bt).1 ≤ high ∧
      probeSize getFont hy text bw bh (cfs_loop getFont hy text bw bh fuel low high b bt).1 =
        some (cfs_loop getFont hy text bw bh fuel low high b bt).2 ∧
      (∀ q, q ≤ high → probeSize getFont hy text bw bh q ≠ none →
        q ≤ (cfs_loop getFont hy text bw bh fuel low high b bt).1) := by
  intro fuel
  induction fuel with
  | zero =>
      intro low high b bt hf hex
      obtain ⟨s, hs1, hs2, _⟩ := hex
      omega
  | succ n ih =>
      intro low high b bt hf hex
      have hlh : low ≤ high := by
        obtain ⟨s, hs1, hs2, _⟩ := hex
        omega
      cases hp : probeSize getFont hy text bw bh ((low + high) / 2) with
      | some r =>
          have hstep : cfs_loop getFont hy text bw bh (n + 1) low high b bt =
              cfs_loop getFont hy text bw bh n ((low + high) / 2 + 1) high
                ((low + high) / 2) r := by
            simp only [cfs_loop]
            rw [if_pos hlh, hp]
          rw [hstep]
          by_cases hex2 : ∃ s, (low + high) / 2 + 1 ≤ s ∧ s ≤ high ∧
              probeSize getFont hy text bw bh s ≠ none
          · have hf2 : high + 1 - ((low + high) / 2 + 1) ≤ n := by omega
            obtain ⟨ih1, ih2, ih3, ih4⟩ :=
              ih ((low + high) / 2 + 1) high ((low + high) / 2) r hf2 hex2
            exact ⟨by omega, ih2, ih3, ih4⟩
          · push_neg at hex2
            have hnone : ∀ s, (low + high) / 2 + 1 ≤ s → s ≤ high →
                probeSize getFont hy text bw bh s = none := hex2
            rw [cfs_loop_none getFont hy text bw bh n ((low + high) / 2 + 1) high
              ((low + high) / 2) r hnone]
            refine ⟨by omega, by omega, hp, ?_⟩
            intro q hq hPq
            by_contra hgt
            push_neg at hgt
            exact hPq (hnone q (by omega) hq)
      | none =>
          have hneg : ∀ s, (low + high) / 2 ≤ s →
              probeSize getFont hy text bw bh s = none := by
            intro s hs
            by_contra hne
            exact (hmono _ s hs hne) hp
          obtain ⟨s0, hs1, hs2, hs3⟩ := hex
          have hs0lt : s0 < (low + high) / 2 := by
            by_contra hcon
            push_neg at hcon
            exact hs3 (hneg s0 hcon)
          have hstep : cfs_loop getFont hy text bw bh (n + 1) low high b bt =
              cfs_loop getFont hy text bw bh n low ((low + high) / 2 - 1) b bt := by
            simp only [cfs_loop]
            rw [if_pos hlh, hp]
          rw [hstep]
          have hf2 : (low + high) / 2 - 1 + 1 - low ≤ n := by omega
          have hex2 : ∃ s, low ≤ s ∧ s ≤ (low + high) / 2 - 1 ∧
              probeSize getFont hy text bw bh s ≠ none := ⟨s0, hs1, by omega, hs3⟩
          obtain ⟨ih1, ih2, ih3, ih4⟩ := ih low ((low + high) / 2 - 1) b bt hf2 hex2
          refine ⟨ih1, by omega, ih3, ?_⟩
          intro q hq hPq
          have hqlt : q < (low + high) / 2 := by
            by_contra hcon
            push_neg at hcon
            exact hPq (hneg q hcon)
          exact ih4 q (by omega) hPq

/-- C2, counterexample: under the (non-monotone) font family `gF80`,
size 80 fits (wrapping succeeds) yet `calculate_font_size` returns size 10
— not the largest fitting size — and its returned text `"t"` is the raw
input, not a successful wrap at 10: the wrap attempt at 10 fails. -/
theorem C2_counterexample :
    calculate_font_size gF80 hy0 "t" 10 10 80 10 = (10, "t") ∧
    wrap_text_with_breaking (gF80 80) hy0 "t" 10 10 = some "t" ∧
    wrap_text_with_breaking (gF80 10) hy0 "t" 10 10 = none ∧
    (calculate_font_size gF80 hy0 "t" 10 10 80 10).1 ≠ 80 := by
  refine ⟨by decide, by decide, by decide, by decide⟩

/-- C2, amended: assuming the spec's monotonicity hypothesis (a size whose
wrap succeeds implies every smaller size succeeds), `calculate_font_size`
returns the largest size in `[min_size, max_size]` whose wrap succeeds,
paired with that successful wrap; and when no size in the range succeeds
it returns `min_size` paired with the original input text (not a wrap). -/
theorem C2_amended_font_size_search (getFont : Nat → Font) (hy : Hyphenator)
    (text : String) (bw bh max_size min_size : Nat)
    (hmono : ∀ s u, s ≤ u → probeSize getFont hy text bw bh u ≠ none →
      probeSize getFont hy text bw bh s ≠ none) :
    ((∀ s, min_size ≤ s → s ≤ max_size → probeSize getFont hy text bw bh s = none) →
      calculate_font_size getFont hy text bw bh max_size min_size = (min_size, text)) ∧
    ((∃ s, min_size ≤ s ∧ s ≤ max_size ∧ probeSize getFont hy text bw bh s ≠ none) →
      min_size ≤ (calculate_font_size getFont hy text bw bh max_size min_size).1 ∧
      (calculate_font_size getFont hy text bw bh max_size min_size).1 ≤ max_size ∧
      probeSize getFont hy text bw bh
          (calculate_font_size getFont hy text bw bh max_size min_size).1 =
        some (calculate_font_size getFont hy text bw bh max_size min_size).2 ∧
      (∀ q, q ≤ max_size → probeSize getFont hy text bw bh q ≠ none →
        q ≤ (calculate_font_size getFont hy text bw bh max_size min_size).1)) := by
  constructor
  · intro hnone
    exact cfs_loop_none getFont hy text bw bh (max_size + 1 - min_size)
      min_size max_size min_size text hnone
  · intro hex
    exact cfs_loop_found getFont hy text bw bh hmono (max_size + 1 - min_size)
      min_size max_size min_size text (le_refl _) hex

/-- C2 witness: the constant zero-width family, under which the fit
predicate is trivially monotone and every size fits; the search returns a
size in `[10, 80]` with a successful wrap. -/
theorem C2_amended_font_size_search_witness :
    10 ≤ (calculate_font_size gF0 hy0 "a" 5 5 80 10).1 ∧
    (calculate_font_size gF0 hy0 "a" 5 5 80 10).1 ≤ 80 ∧
    probeSize gF0 hy0 "a" 5 5 (calculate_font_size gF0 hy0 "a" 5 5 80 10).1 =
      some (calculate_font_size gF0 hy0 "a" 5 5 80 10).2 := by
  have h := (C2_amended_font_size_search gF0 hy0 "a" 5 5 80 10
    (fun s u _ hu => hu)).2 ⟨10, le_refl _, by omega, by decide⟩
  exact ⟨h.1, h.2.1, h.2.2.1⟩

/-- C6, counterexample: with the monospace family `gFmono` and a
dictionary hyphenating only the longer word, extending the text `"mnop"`
by one character to `"mnopq"` RAISES the chosen size from 2 to 3: the
longer word gains a hyphenation point that permits two short lines. -/
theorem C6_counterexample :
    ("mnop" ++ "q" : String) = "mnopq" ∧
    (calculate_font_size gFmono hy6 "mnop" 10 100 80 1).1 = 2 ∧
    (calculate_font_size gFmono hy6 "mnopq" 10 100 80 1).1 = 3 := by
  refine ⟨rfl, by decide, by decide⟩

/-- C6, amended: with box and size bounds fixed, if the fit predicate is
monotone in size for both texts and every size fitting the extended text
also fits the original (as expected when text only grows), then the chosen
size for the extended text is at most the chosen size for the original. -/
theorem C6_amended_monotone (getFont : Nat → Font) (hy : Hyphenator)
    (t t2 : String) (bw bh max_size min_size : Nat)
    (_hext : ∃ u, t2 = t ++ u)
    (hmono : ∀ s u, s ≤ u → probeSize getFont hy t bw bh u ≠ none →
      probeSize getFont hy t bw bh s ≠ none)
    (hmono2 : ∀ s u, s ≤ u → probeSize getFont hy t2 bw bh u ≠ none →
      probeSize getFont hy t2 bw bh s ≠ none)
    (hsub : ∀ s, probeSize getFont hy t2 bw bh s ≠ none →
      probeSize getFont hy t bw bh s ≠ none) :
    (calculate_font_size getFont hy t2 bw bh max_size min_size).1 ≤
      (calculate_font_size getFont hy t bw bh max_size min_size).1 := by
  unfold calculate_font_size
  by_cases hex : ∃ s, min_size ≤ s ∧ s ≤ max_size ∧
      probeSize getFont hy t2 bw bh s ≠ none
  · obtain ⟨h2a, h2b, h2c, _⟩ := cfs_loop_found getFont hy t2 bw bh hmono2
      (max_size + 1 - min_size) min_size max_size min_size t2 (le_refl _) hex
    have hPr2 : probeSize getFont hy t bw bh
        (cfs_loop getFont hy t2 bw bh (max_size + 1 - min_size)
          min_size max_size min_size t2).1 ≠ none := by
      apply hsub
      rw [h2c]
      simp
    have hex1 : ∃ s, min_size ≤ s ∧ s ≤ max_size ∧
        probeSize getFont hy t bw bh s ≠ none :=
      ⟨(cfs_loop getFont hy t2 bw bh (max_size + 1 - min_size)
          min_size max_size min_size t2).1, h2a, h2b, hPr2⟩
    obtain ⟨_, _, _, h1d⟩ := cfs_loop_found getFont hy t bw bh hmono
      (max_size + 1 - min_size) min_size max_size min_size t (le_refl _) hex1
    exact h1d _ h2b hPr2
  · push_neg at hex
    have hz : cfs_loop getFont hy t2 bw bh (max_size + 1 - min_size)
        min_size max_size min_size t2 = (min_size, t2) :=
      cfs_loop_none getFont hy t2 bw bh (max_size + 1 - min_size)
        min_size max_size min_size t2 hex
    rw [hz]
    rcases cfs_loop_fst_lower getFont hy t bw bh (max_size + 1 - min_size)
      min_size max_size min_size t with h | h
    · rw [h]
    · exact le_trans (by omega) h

/-- C6 witness: the constant zero-width family with `"ab"` extended to
`"ab c"`; both always fit, and the chosen sizes obey the inequality. -/
theorem C6_amended_monotone_witness :
    (calculate_font_size gF0 hy0 "ab c" 5 5 80 10).1 ≤
      (calculate_font_size gF0 hy0 "ab" 5 5 80 10).1 := by
  have hconst : wrap_text_with_breaking f0 hy0 "ab" 5 5 ≠ none := by decide
  exact C6_amended_monotone gF0 hy0 "ab" "ab c" 5 5 80 10
    ⟨" c", rfl⟩
    (fun s u _ hu => hu)
    (fun s u _ hu => hu)
    (fun s _ => hconst)

/-- Every piece of a newline split is newline-free. -/
theorem splitNl_nlFree : ∀ l : List Char, ∀ p ∈ splitNl l, '\n' ∉ p := by
  intro l
  induction l with
  | nil =>
      intro p hp
      simp only [splitNl, List.mem_singleton] at hp
      subst hp
      simp
  | cons c cs ih =>
      intro p hp
      by_cases hc : c = '\n'
      · rw [splitNl, if_pos hc] at hp
        rcases List.mem_cons.mp hp with h | h
        · subst h; simp
        · exact ih p h
      · rw [splitNl, if_neg hc] at hp
        cases hg : splitNl cs with
        | nil =>
            rw [hg] at hp
            simp only [List.mem_singleton] at hp
            subst hp
            intro hmem
            simp only [List.mem_singleton] at hmem
            exact hc hmem.symm
        | cons g gs =>
            rw [hg] at hp
            rcases List.mem_cons.mp hp with h | h
            · subst h
              intro hmem
              rcases List.mem_cons.mp hmem with h2 | h2
              · exact hc h2.symm
              · exact ih g (by rw [hg]; simp) h2
            · exact ih p (by rw [hg]; exact List.mem_cons_of_mem g h)

/-- A newline-free list splits into the single piece itself. -/
theorem splitNl_of_nlFree : ∀ l : List Char, '\n' ∉ l → splitNl l = [l] := by
  intro l
  induction l with
  | nil => intro _; rfl
  | cons c cs ih =>
      intro h
      have hc : ¬ c = '\n' := fun hc => h (by simp [hc])
      have hcs : '\n' ∉ cs := fun hm => h (List.mem_cons_of_mem c hm)
      rw [splitNl, if_neg hc, ih hcs]

/-- Splitting after a newline-free prefix peels it off. -/
theorem splitNl_append (x : List Char) (r : List Char) (hx : '\n' ∉ x) :
    splitNl (x ++ '\n' :: r) = x :: splitNl r := by
  induction x with
  | nil => simp [splitNl]
  | cons c cx ih =>
      have hc : ¬ c = '\n' := fun hc => hx (by simp [hc])
      have hcx : '\n' ∉ cx := fun hm => hx (List.mem_cons_of_mem c hm)
      rw [List.cons_append, splitNl, if_neg hc, ih hcx]

/-- Splitting inverts joining for a nonempty family of newline-free
pieces. -/
theorem splitNl_intercalate : ∀ ls : List (List Char), ls ≠ [] →
    (∀ x ∈ ls, '\n' ∉ x) →
    splitNl (List.intercalate ['\n'] ls) = ls := by
  intro ls
  induction ls with
  | nil => intro h _; exact absurd rfl h
  | cons x ls' ih =>
      intro _ hfree
      cases ls' with
      | nil =>
          have hx : '\n' ∉ x := hfree x (by simp)
          rw [show List.intercalate ['\n'] [x] = x from by simp [List.intercalate]]
          rw [splitNl_of_nlFree x hx]
      | cons y ls'' =>
          have hx : '\n' ∉ x := hfree x (by simp)
          have hrest : ∀ z ∈ y :: ls'', '\n' ∉ z :=
            fun z hz => hfree z (List.mem_cons_of_mem x hz)
          rw [show List.intercalate ['\n'] (x :: y :: ls'') =
              x ++ '\n' :: List.intercalate ['\n'] (y :: ls'') from by
            simp [List.intercalate]]
          rw [splitNl_append x _ hx]
          rw [ih (by simp) hrest]

/-- A character of an intercalation comes from the separator or from one
of the pieces. -/
theorem mem_intercalate (sep : List Char) : ∀ (ls : List (List Char)) (c : Char),
    c ∈ List.intercalate sep ls → c ∈ sep ∨ ∃ x ∈ ls, c ∈ x := by
  intro ls
  induction ls with
  | nil => intro c hc; simp [List.intercalate] at hc
  | cons x ls' ih =>
      intro c hc
      cases ls' with
      | nil =>
          rw [show List.intercalate sep [x] = x from by simp [List.intercalate]] at hc
          exact Or.inr ⟨x, by simp, hc⟩
      | cons y ls'' =>
          rw [show List.intercalate sep (x :: y :: ls'') =
              x ++ sep ++ List.intercalate sep (y :: ls'') from by
            simp [List.intercalate]] at hc
          rcases List.mem_append.mp hc with h | h
          · rcases List.mem_append.mp h with h2 | h2
            · exact Or.inr ⟨x, by simp, h2⟩
            · exact Or.inl h2
          · rcases ih c h with h2 | ⟨z, hz, hcz⟩
            · exact Or.inl h2
            · exact Or.inr ⟨z, List.mem_cons_of_mem x hz, hcz⟩

/-- Joining words with spaces introduces no newline. -/
theorem joinSpace_nlFree (ws : List String)
    (h : ∀ w ∈ ws, '\n' ∉ w.data) : '\n' ∉ (joinSpace ws).data := by
  intro hmem
  rcases mem_intercalate [' '] (ws.map String.data) '\n' hmem with h2 | ⟨x, hx, hcx⟩
  · simp at h2
  · rcases List.mem_map.mp hx with ⟨w, hw, hwd⟩
    exact h w hw (hwd ▸ hcx)

/-- Every word produced by `str.split()` consists of non-whitespace
characters. -/
theorem wordsAux_nonspace : ∀ (l : List Char) (cur : List Char),
    (∀ c ∈ cur, pyIsSpace c = false) →
    ∀ w ∈ wordsAux cur l, ∀ c ∈ w, pyIsSpace c = false := by
  intro l
  induction l with
  | nil =>
      intro cur hcur w hw c hc
      by_cases h : cur = []
      · rw [h] at hw; simp [wordsAux] at hw
      · rw [wordsAux, if_neg h] at hw
        simp only [List.mem_singleton] at hw
        subst hw
        exact hcur c (List.mem_reverse.mp hc)
  | cons a as ih =>
      intro cur hcur w hw c hc
      by_cases ha : pyIsSpace a
      · rw [wordsAux] at hw
        rw [if_pos ha] at hw
        by_cases h : cur = []
        · rw [if_pos h] at hw
          exact ih [] (by simp) w hw c hc
        · rw [if_neg h] at hw
          rcases List.mem_cons.mp hw with h2 | h2
          · subst h2
            exact hcur c (List.mem_reverse.mp hc)
          · exact ih [] (by simp) w h2 c hc
      · rw [wordsAux] at hw
        rw [if_neg ha] at hw
        refine ih (a :: cur) ?_ w hw c hc
        intro d hd
        rcases List.mem_cons.mp hd with h2 | h2
        · subst h2; simpa using ha
        · exact hcur d h2

/-- Every word of the input text is newline-free. -/
theorem wordsOf_nlFree (text : String) :
    ∀ w ∈ wordsOf text, '\n' ∉ w.data := by
  intro w hw hmem
  rcases List.mem_map.mp hw with ⟨l, hl, hlw⟩
  have := wordsAux_nonspace text.data [] (by simp) l hl '\n' (by rw [← hlw] at hmem; exact hmem)
  simp [pyIsSpace] at this

/-- All lines produced by a successful run of the wrapping word loop are
newline-free. -/
theorem wrapLoop_nlFree (f : Font) (hy : Hyphenator) (bw : Nat) :
    ∀ (ws lines cur : List String) (L : List String),
      (∀ w ∈ ws, '\n' ∉ w.data) →
      (∀ x ∈ lines, '\n' ∉ x.data) →
      (∀ w ∈ cur, '\n' ∉ w.data) →
      wrapLoop f hy bw ws lines cur = some L →
      ∀ x ∈ L, '\n' ∉ x.data := by
  intro ws
  induction ws with
  | nil =>
      intro lines cur L _ hlines hcur hL x hx
      simp only [wrapLoop, Option.some_inj] at hL
      subst hL
      by_cases h : cur = []
      · rw [if_neg (by simp [h])] at hx
        exact hlines x hx
      · rw [if_pos (by simp [h])] at hx
        rcases List.mem_append.mp hx with h2 | h2
        · exact hlines x h2
        · simp only [List.mem_singleton] at h2
          subst h2
          exact joinSpace_nlFree cur hcur
  | cons word ws' ih =>
      intro lines cur L hws hlines hcur hL x hx
      have hword : '\n' ∉ word.data := hws word (by simp)
      have hws' : ∀ w ∈ ws', '\n' ∉ w.data :=
        fun w hw => hws w (List.mem_cons_of_mem word hw)
      have hlines' : ∀ y ∈ (if cur ≠ [] then lines ++ [joinSpace cur] else lines),
          '\n' ∉ y.data := by
        intro y hy2
        by_cases h : cur = []
        · rw [if_neg (by simp [h])] at hy2
          exact hlines y hy2
        · rw [if_pos (by simp [h])] at hy2
          rcases List.mem_append.mp hy2 with h2 | h2
          · exact hlines y h2
          · simp only [List.mem_singleton] at h2
            subst h2
            exact joinSpace_nlFree cur hcur
      rw [wrapLoop] at hL
      by_cases h1 : f.width (if cur ≠ [] then joinSpace (cur ++ [word]) else word) ≤ bw
      · rw [if_pos h1] at hL
        refine ih lines (cur ++ [word]) L hws' hlines ?_ hL x hx
        intro w hw
        rcases List.mem_append.mp hw with h2 | h2
        · exact hcur w h2
        · simp only [List.mem_singleton] at h2
          subst h2
          exact hword
      · rw [if_neg h1] at hL
        by_cases h2 : f.width word ≤ bw
        · rw [if_pos h2] at hL
          refine ih _ [word] L hws' hlines' ?_ hL x hx
          intro w hw
          simp only [List.mem_singleton] at hw
          subst hw
          exact hword
        · rw [if_neg h2] at hL
          by_cases h3 : '\n' ∈ (break_long_word word bw f hy).data
          · rw [if_pos h3] at hL
            by_cases h4 : (linesOf (break_long_word word bw f hy)).dropLast.any
                (fun part => decide (f.width part > bw))
            · rw [if_pos h4] at hL
              simp at hL
            · rw [if_neg h4] at hL
              have hparts : ∀ p ∈ linesOf (break_long_word word bw f hy), '\n' ∉ p.data := by
                intro p hp hmem
                rcases List.mem_map.mp hp with ⟨l, hl, hlp⟩
                exact splitNl_nlFree _ l hl (by rw [← hlp] at hmem; exact hmem)
              refine ih _ _ L hws' ?_ ?_ hL x hx
              · intro y hy2
                rcases List.mem_append.mp hy2 with h5 | h5
                · exact hlines' y h5
                · exact hparts y (List.dropLast_subset _ h5)
              · intro w hw
                simp only [List.mem_singleton] at hw
                subst hw
                rcases List.mem_cons.mp
                    (List.getLastD_mem_cons (linesOf (break_long_word word bw f hy)) "") with
                  h5 | h5
                · rw [h5]; simp
                · exact hparts _ h5
          · rw [if_neg h3] at hL
            simp at hL

/-- Joining then splitting a nonempty list of newline-free lines is the
identity. -/
theorem linesOf_joinNl (ls : List String) (hne : ls ≠ [])
    (hfree : ∀ x ∈ ls, '\n' ∉ x.data) : linesOf (joinNl ls) = ls := by
  unfold linesOf joinNl
  rw [splitNl_intercalate (ls.map String.data)
    (by simpa using hne)
    (by
      intro x hx
      rcases List.mem_map.mp hx with ⟨w, hw, hwd⟩
      exact hwd ▸ hfree w hw)]
  rw [List.map_map]
  have hid : (fun l : List Char => (⟨l⟩ : String)) ∘ String.data = id := by
    funext s
    rfl
  rw [hid, List.map_id]

/-- C3: whenever `wrap_text_with_breaking` succeeds, the measured
multiline height of the wrapped block is within `box_height`, and every
output line's measured width is within `box_width` with zero tolerance
(the empty-text case uses the fact that an empty string measures zero
width, as PIL does). -/
theorem C3_wrap_within_box (f : Font) (hy : Hyphenator) (text : String)
    (box_width box_height : Nat) (w : String)
    (hempty : f.width "" = 0)
    (hw : wrap_text_with_breaking f hy text box_width box_height = some w) :
    f.mlHeight w ≤ box_height ∧
    ∀ line ∈ linesOf w, f.width line ≤ box_width := by
  unfold wrap_text_with_breaking at hw
  cases hL : wrapLoop f hy box_width (wordsOf text) [] [] with
  | none => rw [hL] at hw; simp at hw
  | some lines =>
      rw [hL] at hw
      by_cases hh : f.mlHeight (joinNl lines) > box_height
      · simp [hh] at hw
      · by_cases ha : lines.any (fun line => decide (f.width line > box_width))
        · simp [hh, ha] at hw
        · have hwv : joinNl lines = w := by
            simp [hh, ha] at hw
            exact hw
          subst hwv
          refine ⟨by omega, ?_⟩
          by_cases hln : lines = []
          · subst hln
            intro line hline
            have : line = "" := by
              simp [linesOf, joinNl, List.intercalate, splitNl] at hline
              exact hline
            rw [this, hempty]
            exact Nat.zero_le _
          · have hfree : ∀ x ∈ lines, '\n' ∉ x.data :=
              wrapLoop_nlFree f hy box_width (wordsOf text) [] [] lines
                (wordsOf_nlFree text) (by simp) (by simp) hL
            rw [linesOf_joinNl lines hln hfree]
            simpa using ha

/-- C3 witness: the zero font wraps `"hello world"` into one line inside a
5×5 box; the height bound and the width bound at that line follow from the
theorem. -/
theorem C3_wrap_within_box_witness :
    f0.width "" = 0 ∧
    wrap_text_with_breaking f0 hy0 "hello world" 5 5 = some "hello world" ∧
    f0.mlHeight "hello world" ≤ 5 ∧
    f0.width "hello world" ≤ 5 := by
  refine ⟨rfl, by decide, ?_, ?_⟩
  · exact (C3_wrap_within_box f0 hy0 "hello world" 5 5 "hello world" rfl (by decide)).1
  · exact (C3_wrap_within_box f0 hy0 "hello world" 5 5 "hello world" rfl (by decide)).2
      "hello world" (by decide)

end MangaPipeline
